import Mathlib

/-!
Verification of the comprs core: the 2D prefix-sum table (src/psa.rs), the
region statistics engine (src/image.rs) and the priority-driven quadtree
refinement scheduler (src/tree.rs).

Machine integers: the accumulator channels are Rust `u64`.  All arithmetic the
program performs on them (sums, squares, truncating division, the variance
subtraction) stays far below `2^64` for any image whose channel sums fit the
accumulator, which is exactly the regime the program is specified for; we model
the channels as `ℤ` and separately prove (claim C7) that the one subtraction
that could underflow in `u64` never does.  `ℤ` division `/` is Euclidean
division, which agrees with Rust `u64` division on the non-negative operands
that actually occur.
-/

namespace Comprs

/-- `RGB<T>` (src/image.rs): a color triple of accumulator channels. -/
structure RGB (α : Type) where
  r : α
  g : α
  b : α
deriving DecidableEq, Repr

namespace RGB

variable {α : Type}

/-- `RGB::comp_prod` (src/image.rs): elementwise product of two triples. -/
def comp_prod [Mul α] (x y : RGB α) : RGB α :=
  ⟨x.r * y.r, x.g * y.g, x.b * y.b⟩

/-- `impl Add for RGB<T>` (src/image.rs). -/
def add [Add α] (x y : RGB α) : RGB α :=
  ⟨x.r + y.r, x.g + y.g, x.b + y.b⟩

/-- `impl Sub for RGB<T>` (src/image.rs). -/
def sub [Sub α] (x y : RGB α) : RGB α :=
  ⟨x.r - y.r, x.g - y.g, x.b - y.b⟩

/-- `impl Div<T> for RGB<T>` (src/image.rs): componentwise division by a scalar. -/
def divScalar [Div α] (x : RGB α) (s : α) : RGB α :=
  ⟨x.r / s, x.g / s, x.b / s⟩

/-- `impl Zero for RGB<u64>` (src/image.rs). -/
def zero [Zero α] : RGB α := ⟨0, 0, 0⟩

/-- Componentwise negation; not in the source (u64 has no negation), only used
to organise the componentwise arithmetic as a group structure on the model. -/
def neg [Neg α] (x : RGB α) : RGB α := ⟨-x.r, -x.g, -x.b⟩

instance [Add α] : Add (RGB α) := ⟨add⟩
instance [Sub α] : Sub (RGB α) := ⟨sub⟩
instance [Zero α] : Zero (RGB α) := ⟨zero⟩
instance [Neg α] : Neg (RGB α) := ⟨neg⟩

variable [AddCommGroup α]

theorem add_assoc' (x y z : RGB α) : add (add x y) z = add x (add y z) := by
  cases x; cases y; cases z; simp [RGB.add, add_assoc]

theorem zero_add' (x : RGB α) : add zero x = x := by
  cases x; simp [RGB.add, RGB.zero]

theorem add_zero' (x : RGB α) : add x zero = x := by
  cases x; simp [RGB.add, RGB.zero]

theorem add_comm' (x y : RGB α) : add x y = add y x := by
  cases x; cases y; simp [RGB.add, add_comm]

theorem neg_add_cancel' (x : RGB α) : add (neg x) x = zero := by
  cases x; simp [RGB.add, RGB.neg, RGB.zero]

theorem sub_eq_add_neg' (x y : RGB α) : sub x y = add x (neg y) := by
  cases x; cases y; simp [RGB.add, RGB.sub, RGB.neg, sub_eq_add_neg]

instance : AddCommGroup (RGB α) where
  add := RGB.add
  zero := RGB.zero
  neg := RGB.neg
  sub := RGB.sub
  nsmul := nsmulRec
  zsmul := zsmulRec
  add_assoc := add_assoc'
  zero_add := zero_add'
  add_zero := add_zero'
  add_comm := add_comm'
  neg_add_cancel := neg_add_cancel'
  sub_eq_add_neg := sub_eq_add_neg'

@[simp] theorem add_r (x y : RGB α) : (x + y).r = x.r + y.r := rfl
@[simp] theorem add_g (x y : RGB α) : (x + y).g = x.g + y.g := rfl
@[simp] theorem add_b (x y : RGB α) : (x + y).b = x.b + y.b := rfl
@[simp] theorem sub_r (x y : RGB α) : (x - y).r = x.r - y.r := rfl
@[simp] theorem sub_g (x y : RGB α) : (x - y).g = x.g - y.g := rfl
@[simp] theorem sub_b (x y : RGB α) : (x - y).b = x.b - y.b := rfl
@[simp] theorem zero_r : (0 : RGB α).r = 0 := rfl
@[simp] theorem zero_g : (0 : RGB α).g = 0 := rfl
@[simp] theorem zero_b : (0 : RGB α).b = 0 := rfl

/-- The `r` channel, as an additive monoid homomorphism on the model. -/
def rHom : RGB α →+ α where
  toFun := RGB.r
  map_zero' := rfl
  map_add' _ _ := rfl

/-- The `g` channel, as an additive monoid homomorphism on the model. -/
def gHom : RGB α →+ α where
  toFun := RGB.g
  map_zero' := rfl
  map_add' _ _ := rfl

/-- The `b` channel, as an additive monoid homomorphism on the model. -/
def bHom : RGB α →+ α where
  toFun := RGB.b
  map_zero' := rfl
  map_add' _ _ := rfl

theorem sum_r {β : Type} (s : Finset β) (f : β → RGB α) :
    (∑ x ∈ s, f x).r = ∑ x ∈ s, (f x).r :=
  map_sum (rHom (α := α)) f s

theorem sum_g {β : Type} (s : Finset β) (f : β → RGB α) :
    (∑ x ∈ s, f x).g = ∑ x ∈ s, (f x).g :=
  map_sum (gHom (α := α)) f s

theorem sum_b {β : Type} (s : Finset β) (f : β → RGB α) :
    (∑ x ∈ s, f x).b = ∑ x ∈ s, (f x).b :=
  map_sum (bHom (α := α)) f s

end RGB

section PrefixSum

variable {α : Type} [AddCommGroup α]

/-- One row of the table filled by `PrefixSum2D::new` (src/psa.rs).  `prev` is
row `i` of the table, `row` is row `i` of the input, and the value at column
`j+1` is `arr[i][j] + data[i][j+1] + data[i+1][j] - data[i][j]`; column 0 is
the zero padding. -/
def psRow (prev row : ℕ → α) : ℕ → α
  | 0 => 0
  | j + 1 => row j + prev (j + 1) + psRow prev row j - prev j

/-- The table `data` of `PrefixSum2D::new` (src/psa.rs), as a function of its
indices: row 0 is the zero padding, and row `i+1` is filled from row `i` by the
inclusion-exclusion recurrence (the source fills rows in increasing `i`, and
within a row in increasing `j`, which is exactly this recursion). -/
def psTable (arr : ℕ → ℕ → α) : ℕ → ℕ → α
  | 0 => fun _ => 0
  | i + 1 => psRow (psTable arr i) (arr i)

/-- `PrefixSum2D::query_sum` (src/psa.rs):
`data[br.0+1][br.1+1] + data[tl.0][tl.1] - data[br.0+1][tl.1] - data[tl.0][br.1+1]`. -/
def query_sum (arr : ℕ → ℕ → α) (top_left bottom_right : ℕ × ℕ) : α :=
  psTable arr (bottom_right.1 + 1) (bottom_right.2 + 1) + psTable arr top_left.1 top_left.2
    - psTable arr (bottom_right.1 + 1) top_left.2 - psTable arr top_left.1 (bottom_right.2 + 1)

theorem psRow_eq (prev row : ℕ → α) (j : ℕ) :
    psRow prev row j = (∑ c ∈ Finset.range j, row c) + prev j - prev 0 := by
  induction j with
  | zero => simp [psRow]
  | succ j ih =>
    rw [psRow, ih, Finset.sum_range_succ]
    abel

theorem psTable_eq (arr : ℕ → ℕ → α) (i j : ℕ) :
    psTable arr i j = ∑ a ∈ Finset.range i, ∑ c ∈ Finset.range j, arr a c := by
  induction i generalizing j with
  | zero => simp [psTable]
  | succ i ih =>
    rw [psTable, psRow_eq, ih, ih, Finset.sum_range_succ]
    simp
    abel

/-- Correctness of the four-corner query: over a group, `query_sum` is the sum
of the input over the inclusive rectangle. -/
theorem query_sum_eq (arr : ℕ → ℕ → α) (tl br : ℕ × ℕ)
    (h1 : tl.1 ≤ br.1) (h2 : tl.2 ≤ br.2) :
    query_sum arr tl br =
      ∑ i ∈ Finset.Icc tl.1 br.1, ∑ j ∈ Finset.Icc tl.2 br.2, arr i j := by
  have hrow : ∀ i : ℕ, ∑ j ∈ Finset.Icc tl.2 br.2, arr i j =
      (∑ j ∈ Finset.range (br.2 + 1), arr i j) - ∑ j ∈ Finset.range tl.2, arr i j := by
    intro i
    rw [← Nat.Ico_succ_right, Finset.sum_Ico_eq_sub _ (Nat.le_succ_of_le h2)]
  calc query_sum arr tl br
      = (∑ i ∈ Finset.range (br.1 + 1),
            ((∑ j ∈ Finset.range (br.2 + 1), arr i j) - ∑ j ∈ Finset.range tl.2, arr i j))
        - ∑ i ∈ Finset.range tl.1,
            ((∑ j ∈ Finset.range (br.2 + 1), arr i j) - ∑ j ∈ Finset.range tl.2, arr i j) := by
        rw [query_sum, psTable_eq, psTable_eq, psTable_eq, psTable_eq,
          Finset.sum_sub_distrib, Finset.sum_sub_distrib]
        abel
    _ = ∑ i ∈ Finset.Icc tl.1 br.1,
          ((∑ j ∈ Finset.range (br.2 + 1), arr i j) - ∑ j ∈ Finset.range tl.2, arr i j) := by
        rw [← Nat.Ico_succ_right, Finset.sum_Ico_eq_sub _ (Nat.le_succ_of_le h1)]
    _ = ∑ i ∈ Finset.Icc tl.1 br.1, ∑ j ∈ Finset.Icc tl.2 br.2, arr i j := by
        exact Finset.sum_congr rfl fun i _ => (hrow i).symm

end PrefixSum

/-- C1: for every non-empty rectangular grid of summable values and every valid
inclusive rectangle (`top_left.row ≤ bottom_right.row < height` and
`top_left.col ≤ bottom_right.col < width`), `query_sum` on the table built by
`PrefixSum2D::new` equals the brute-force elementwise sum of the grid values
inside that rectangle. -/
theorem claim_C1_query_sum_correct {α : Type} [AddCommGroup α]
    (arr : ℕ → ℕ → α) (height width : ℕ) (tl br : ℕ × ℕ)
    (h1 : tl.1 ≤ br.1) (h2 : br.1 < height) (h3 : tl.2 ≤ br.2) (h4 : br.2 < width) :
    query_sum arr tl br =
      ∑ i ∈ Finset.Icc tl.1 br.1, ∑ j ∈ Finset.Icc tl.2 br.2, arr i j :=
  query_sum_eq arr tl br h1 h3

/-- Witness grid for C1. -/
def w1grid : ℕ → ℕ → ℤ := fun i j => 10 * i + j

theorem claim_C1_witness : query_sum w1grid (0, 0) (1, 2) = (36 : ℤ) :=
  (claim_C1_query_sum_correct w1grid 2 3 (0, 0) (1, 2)
    (by decide) (by decide) (by decide) (by decide)).trans (by decide)

/-- The grid of elementwise squares built in `ImageData::new` (src/image.rs):
`data.map(|row| row.map(|x| x.comp_prod(*x)))`. -/
def squaresGrid (g : ℕ → ℕ → RGB ℤ) : ℕ → ℕ → RGB ℤ :=
  fun i j => (g i j).comp_prod (g i j)

/-- `ImageData` (src/image.rs): the region statistics engine.  It stores the
image dimensions and, in the source, two `PrefixSum2D` tables over the grid and
over `squaresGrid grid`; in the model the tables are the functions
`psTable grid` and `psTable (squaresGrid grid)`, queried through `query_sum`. -/
structure ImageData where
  height : ℕ
  width : ℕ
  grid : ℕ → ℕ → RGB ℤ

namespace ImageData

/-- `ImageData::sum` (src/image.rs): `self.sums.query_sum(top_left, bottom_right)`. -/
def sum (d : ImageData) (top_left bottom_right : ℕ × ℕ) : RGB ℤ :=
  query_sum d.grid top_left bottom_right

/-- The query `self.square_sums.query_sum(top_left, bottom_right)` used inside
`ImageData::metric` (src/image.rs). -/
def square_sum (d : ImageData) (top_left bottom_right : ℕ × ℕ) : RGB ℤ :=
  query_sum (squaresGrid d.grid) top_left bottom_right

/-- `ImageData::average` (src/image.rs): componentwise truncating division of
the rectangle sum by the pixel count `(height * width)`. -/
def average (d : ImageData) (top_left bottom_right : ℕ × ℕ) : RGB ℤ :=
  let height : ℕ := bottom_right.1 - top_left.1 + 1
  let width : ℕ := bottom_right.2 - top_left.2 + 1
  (d.sum top_left bottom_right).divScalar ((height * width : ℕ) : ℤ)

/-- `ImageData::metric` (src/image.rs).  The `u64` subtraction
`square_sum / (height * width) - mean.comp_prod(mean)` is modelled as `ℤ`
subtraction; claim C7 proves it never underflows when the grid channels are
non-negative, so the model and the wrapping `u64` subtraction agree there. -/
def metric (d : ImageData) (top_left bottom_right : ℕ × ℕ) : ℤ :=
  let height : ℕ := bottom_right.1 - top_left.1 + 1
  let width : ℕ := bottom_right.2 - top_left.2 + 1
  let mean := (d.sum top_left bottom_right).divScalar ((height * width : ℕ) : ℤ)
  let square_sum := d.square_sum top_left bottom_right
  let variance := square_sum.divScalar ((height * width : ℕ) : ℤ) - mean.comp_prod mean
  (variance.r + variance.g + variance.b) * ((height * width : ℕ) : ℤ)

end ImageData

/-- C4: for every valid rectangle with pixel count `n = rows * cols` (inclusive
range counts), the error metric equals the sum over the three channels of
`squareSum_c / n - (sum_c / n)^2`, multiplied by `n`, where the per-channel
mean is the truncating integer division of the brute-force channel sum and is
squared before being subtracted from the truncated mean of squares. -/
theorem claim_C4_metric_formula (d : ImageData) (tl br : ℕ × ℕ) (n : ℤ)
    (h1 : tl.1 ≤ br.1) (h2 : br.1 < d.height) (h3 : tl.2 ≤ br.2) (h4 : br.2 < d.width)
    (hn : n = (((br.1 - tl.1 + 1) * (br.2 - tl.2 + 1) : ℕ) : ℤ)) :
    d.metric tl br =
      (((∑ i ∈ Finset.Icc tl.1 br.1, ∑ j ∈ Finset.Icc tl.2 br.2,
            (d.grid i j).r * (d.grid i j).r) / n
          - ((∑ i ∈ Finset.Icc tl.1 br.1, ∑ j ∈ Finset.Icc tl.2 br.2, (d.grid i j).r) / n) ^ 2)
        + ((∑ i ∈ Finset.Icc tl.1 br.1, ∑ j ∈ Finset.Icc tl.2 br.2,
            (d.grid i j).g * (d.grid i j).g) / n
          - ((∑ i ∈ Finset.Icc tl.1 br.1, ∑ j ∈ Finset.Icc tl.2 br.2, (d.grid i j).g) / n) ^ 2)
        + ((∑ i ∈ Finset.Icc tl.1 br.1, ∑ j ∈ Finset.Icc tl.2 br.2,
            (d.grid i j).b * (d.grid i j).b) / n
          - ((∑ i ∈ Finset.Icc tl.1 br.1, ∑ j ∈ Finset.Icc tl.2 br.2, (d.grid i j).b) / n) ^ 2))
      * n := by
  subst hn
  simp only [ImageData.metric, ImageData.sum, ImageData.square_sum,
    query_sum_eq _ tl br h1 h3, RGB.divScalar, RGB.comp_prod,
    RGB.sub_r, RGB.sub_g, RGB.sub_b, RGB.sum_r, RGB.sum_g, RGB.sum_b, squaresGrid]
  simp only [pow_two]

/-- Witness grid for C4, C7: a constant color. -/
def w7grid : ℕ → ℕ → RGB ℤ := fun _ _ => ⟨3, 4, 5⟩

/-- Witness image for C4, C7. -/
def imgW7 : ImageData := ⟨2, 2, w7grid⟩

theorem claim_C4_witness :
    imgW7.metric (0, 0) (1, 1) =
      (((∑ i ∈ Finset.Icc 0 1, ∑ j ∈ Finset.Icc 0 1,
            (imgW7.grid i j).r * (imgW7.grid i j).r) / (4 : ℤ)
          - ((∑ i ∈ Finset.Icc 0 1, ∑ j ∈ Finset.Icc 0 1, (imgW7.grid i j).r) / (4 : ℤ)) ^ 2)
        + ((∑ i ∈ Finset.Icc 0 1, ∑ j ∈ Finset.Icc 0 1,
            (imgW7.grid i j).g * (imgW7.grid i j).g) / (4 : ℤ)
          - ((∑ i ∈ Finset.Icc 0 1, ∑ j ∈ Finset.Icc 0 1, (imgW7.grid i j).g) / (4 : ℤ)) ^ 2)
        + ((∑ i ∈ Finset.Icc 0 1, ∑ j ∈ Finset.Icc 0 1,
            (imgW7.grid i j).b * (imgW7.grid i j).b) / (4 : ℤ)
          - ((∑ i ∈ Finset.Icc 0 1, ∑ j ∈ Finset.Icc 0 1, (imgW7.grid i j).b) / (4 : ℤ)) ^ 2))
      * (4 : ℤ) :=
  claim_C4_metric_formula imgW7 (0, 0) (1, 1) 4
    (by decide) (by decide) (by decide) (by decide) (by decide)

/-- Scalar no-underflow step for C7: for a truncating (Euclidean) division by
`n > 0`, if `S^2 ≤ n * Q` and `0 ≤ S` then `(S / n)^2 ≤ Q / n`. -/
theorem ediv_sq_le (S Q n : ℤ) (hn : 0 < n) (hS : 0 ≤ S) (hQS : S ^ 2 ≤ n * Q) :
    (S / n) ^ 2 ≤ Q / n := by
  have hm0 : 0 ≤ S / n := Int.ediv_nonneg hS hn.le
  have h1 : (S / n) * n ≤ S := Int.ediv_mul_le S hn.ne.symm
  have h1' : 0 ≤ (S / n) * n := mul_nonneg hm0 hn.le
  have h2 : ((S / n) * n) ^ 2 ≤ S ^ 2 := pow_le_pow_left₀ h1' h1 2
  have h4 : (S / n) ^ 2 * n ≤ Q := by
    have h3 : (S / n) ^ 2 * n * n ≤ Q * n := by nlinarith
    exact le_of_mul_le_mul_right h3 hn
  exact (Int.le_ediv_iff_mul_le hn).2 h4

/-- Cauchy-Schwarz step for one channel: with `n` the pixel count of the
rectangle, the truncated mean of squares dominates the square of the truncated
mean. -/
theorem channel_sq_le (f : ℕ → ℕ → ℤ) (tl br : ℕ × ℕ)
    (h1 : tl.1 ≤ br.1) (h3 : tl.2 ≤ br.2) (hf : ∀ i j, 0 ≤ f i j) :
    ((∑ i ∈ Finset.Icc tl.1 br.1, ∑ j ∈ Finset.Icc tl.2 br.2, f i j)
        / (((br.1 - tl.1 + 1) * (br.2 - tl.2 + 1) : ℕ) : ℤ)) ^ 2 ≤
      (∑ i ∈ Finset.Icc tl.1 br.1, ∑ j ∈ Finset.Icc tl.2 br.2, f i j * f i j)
        / (((br.1 - tl.1 + 1) * (br.2 - tl.2 + 1) : ℕ) : ℤ) := by
  have hnpos : 0 < (((br.1 - tl.1 + 1) * (br.2 - tl.2 + 1) : ℕ) : ℤ) := by
    exact_mod_cast Nat.mul_pos (Nat.succ_pos _) (Nat.succ_pos _)
  have hS : 0 ≤ ∑ i ∈ Finset.Icc tl.1 br.1, ∑ j ∈ Finset.Icc tl.2 br.2, f i j :=
    Finset.sum_nonneg fun i _ => Finset.sum_nonneg fun j _ => hf i j
  have hcard : ((Finset.Icc tl.1 br.1 ×ˢ Finset.Icc tl.2 br.2).card : ℤ) =
      (((br.1 - tl.1 + 1) * (br.2 - tl.2 + 1) : ℕ) : ℤ) := by
    rw [Finset.card_product, Nat.card_Icc, Nat.card_Icc]
    have e1 : br.1 + 1 - tl.1 = br.1 - tl.1 + 1 := by omega
    have e2 : br.2 + 1 - tl.2 = br.2 - tl.2 + 1 := by omega
    rw [e1, e2]
  have hcs := sq_sum_le_card_mul_sum_sq
    (s := Finset.Icc tl.1 br.1 ×ˢ Finset.Icc tl.2 br.2) (f := fun p => f p.1 p.2)
  rw [Finset.sum_product' _ _ fun i j => f i j] at hcs
  have hQS : (∑ i ∈ Finset.Icc tl.1 br.1, ∑ j ∈ Finset.Icc tl.2 br.2, f i j) ^ 2 ≤
      (((br.1 - tl.1 + 1) * (br.2 - tl.2 + 1) : ℕ) : ℤ) *
        ∑ i ∈ Finset.Icc tl.1 br.1, ∑ j ∈ Finset.Icc tl.2 br.2, f i j * f i j := by
    calc (∑ i ∈ Finset.Icc tl.1 br.1, ∑ j ∈ Finset.Icc tl.2 br.2, f i j) ^ 2
        ≤ ((Finset.Icc tl.1 br.1 ×ˢ Finset.Icc tl.2 br.2).card : ℤ) *
            ∑ p ∈ Finset.Icc tl.1 br.1 ×ˢ Finset.Icc tl.2 br.2, f p.1 p.2 ^ 2 := hcs
      _ = (((br.1 - tl.1 + 1) * (br.2 - tl.2 + 1) : ℕ) : ℤ) *
            ∑ i ∈ Finset.Icc tl.1 br.1, ∑ j ∈ Finset.Icc tl.2 br.2, f i j * f i j := by
          rw [hcard, Finset.sum_product' _ _ fun i j => f i j ^ 2]
          simp only [pow_two]
  exact ediv_sq_le _ _ _ hnpos hS hQS

/-- Expansion of `ImageData::metric` in terms of the two table queries (this is
just the unfolding of the source computation). -/
theorem metric_expand (d : ImageData) (tl br : ℕ × ℕ) :
    d.metric tl br =
      ((d.square_sum tl br).r / (((br.1 - tl.1 + 1) * (br.2 - tl.2 + 1) : ℕ) : ℤ)
          - ((d.sum tl br).r / (((br.1 - tl.1 + 1) * (br.2 - tl.2 + 1) : ℕ) : ℤ))
            * ((d.sum tl br).r / (((br.1 - tl.1 + 1) * (br.2 - tl.2 + 1) : ℕ) : ℤ))
        + ((d.square_sum tl br).g / (((br.1 - tl.1 + 1) * (br.2 - tl.2 + 1) : ℕ) : ℤ)
          - ((d.sum tl br).g / (((br.1 - tl.1 + 1) * (br.2 - tl.2 + 1) : ℕ) : ℤ))
            * ((d.sum tl br).g / (((br.1 - tl.1 + 1) * (br.2 - tl.2 + 1) : ℕ) : ℤ)))
        + ((d.square_sum tl br).b / (((br.1 - tl.1 + 1) * (br.2 - tl.2 + 1) : ℕ) : ℤ)
          - ((d.sum tl br).b / (((br.1 - tl.1 + 1) * (br.2 - tl.2 + 1) : ℕ) : ℤ))
            * ((d.sum tl br).b / (((br.1 - tl.1 + 1) * (br.2 - tl.2 + 1) : ℕ) : ℤ))))
      * (((br.1 - tl.1 + 1) * (br.2 - tl.2 + 1) : ℕ) : ℤ) := rfl

/-- C7: for every grid of values widened from 8-bit channels (so every channel
is non-negative) and every valid rectangle, `errorMetric(rect) ≥ 0`; in
particular the `u64` subtraction `squareSum/n - (sum/n)^2` never underflows,
because `floor(E[x^2]) ≥ (floor E[x])^2` holds per channel under truncating
division. -/
theorem claim_C7_metric_nonneg (d : ImageData) (tl br : ℕ × ℕ)
    (h1 : tl.1 ≤ br.1) (h2 : br.1 < d.height) (h3 : tl.2 ≤ br.2) (h4 : br.2 < d.width)
    (hg : ∀ i j, 0 ≤ (d.grid i j).r ∧ 0 ≤ (d.grid i j).g ∧ 0 ≤ (d.grid i j).b) :
    0 ≤ d.metric tl br ∧
      (((d.sum tl br).r / (((br.1 - tl.1 + 1) * (br.2 - tl.2 + 1) : ℕ) : ℤ)) ^ 2 ≤
        (d.square_sum tl br).r / (((br.1 - tl.1 + 1) * (br.2 - tl.2 + 1) : ℕ) : ℤ)) ∧
      (((d.sum tl br).g / (((br.1 - tl.1 + 1) * (br.2 - tl.2 + 1) : ℕ) : ℤ)) ^ 2 ≤
        (d.square_sum tl br).g / (((br.1 - tl.1 + 1) * (br.2 - tl.2 + 1) : ℕ) : ℤ)) ∧
      (((d.sum tl br).b / (((br.1 - tl.1 + 1) * (br.2 - tl.2 + 1) : ℕ) : ℤ)) ^ 2 ≤
        (d.square_sum tl br).b / (((br.1 - tl.1 + 1) * (br.2 - tl.2 + 1) : ℕ) : ℤ)) := by
  have hSr : (d.sum tl br).r =
      ∑ i ∈ Finset.Icc tl.1 br.1, ∑ j ∈ Finset.Icc tl.2 br.2, (d.grid i j).r := by
    simp only [ImageData.sum, query_sum_eq _ tl br h1 h3, RGB.sum_r]
  have hSg : (d.sum tl br).g =
      ∑ i ∈ Finset.Icc tl.1 br.1, ∑ j ∈ Finset.Icc tl.2 br.2, (d.grid i j).g := by
    simp only [ImageData.sum, query_sum_eq _ tl br h1 h3, RGB.sum_g]
  have hSb : (d.sum tl br).b =
      ∑ i ∈ Finset.Icc tl.1 br.1, ∑ j ∈ Finset.Icc tl.2 br.2, (d.grid i j).b := by
    simp only [ImageData.sum, query_sum_eq _ tl br h1 h3, RGB.sum_b]
  have hQr : (d.square_sum tl br).r =
      ∑ i ∈ Finset.Icc tl.1 br.1, ∑ j ∈ Finset.Icc tl.2 br.2, (d.grid i j).r * (d.grid i j).r := by
    simp only [ImageData.square_sum, query_sum_eq _ tl br h1 h3, RGB.sum_r,
      squaresGrid, RGB.comp_prod]
  have hQg : (d.square_sum tl br).g =
      ∑ i ∈ Finset.Icc tl.1 br.1, ∑ j ∈ Finset.Icc tl.2 br.2, (d.grid i j).g * (d.grid i j).g := by
    simp only [ImageData.square_sum, query_sum_eq _ tl br h1 h3, RGB.sum_g,
      squaresGrid, RGB.comp_prod]
  have hQb : (d.square_sum tl br).b =
      ∑ i ∈ Finset.Icc tl.1 br.1, ∑ j ∈ Finset.Icc tl.2 br.2, (d.grid i j).b * (d.grid i j).b := by
    simp only [ImageData.square_sum, query_sum_eq _ tl br h1 h3, RGB.sum_b,
      squaresGrid, RGB.comp_prod]
  have hr := channel_sq_le (fun i j => (d.grid i j).r) tl br h1 h3 fun i j => (hg i j).1
  have hg' := channel_sq_le (fun i j => (d.grid i j).g) tl br h1 h3 fun i j => (hg i j).2.1
  have hb := channel_sq_le (fun i j => (d.grid i j).b) tl br h1 h3 fun i j => (hg i j).2.2
  rw [← hSr, ← hQr] at hr
  rw [← hSg, ← hQg] at hg'
  rw [← hSb, ← hQb] at hb
  refine ⟨?_, hr, hg', hb⟩
  have hnpos : 0 < (((br.1 - tl.1 + 1) * (br.2 - tl.2 + 1) : ℕ) : ℤ) := by
    exact_mod_cast Nat.mul_pos (Nat.succ_pos _) (Nat.succ_pos _)
  rw [metric_expand]
  have hr' := hr; have hgg := hg'; have hb' := hb
  rw [pow_two] at hr' hgg hb'
  have t1 := sub_nonneg.2 hr'
  have t2 := sub_nonneg.2 hgg
  have t3 := sub_nonneg.2 hb'
  exact mul_nonneg (add_nonneg (add_nonneg t1 t2) t3) hnpos.le

theorem claim_C7_witness :
    0 ≤ imgW7.metric (0, 0) (1, 1) ∧
      (((imgW7.sum (0, 0) (1, 1)).r / ((((1 : ℕ) - 0 + 1) * ((1 : ℕ) - 0 + 1) : ℕ) : ℤ)) ^ 2 ≤
        (imgW7.square_sum (0, 0) (1, 1)).r / ((((1 : ℕ) - 0 + 1) * ((1 : ℕ) - 0 + 1) : ℕ) : ℤ)) ∧
      (((imgW7.sum (0, 0) (1, 1)).g / ((((1 : ℕ) - 0 + 1) * ((1 : ℕ) - 0 + 1) : ℕ) : ℤ)) ^ 2 ≤
        (imgW7.square_sum (0, 0) (1, 1)).g / ((((1 : ℕ) - 0 + 1) * ((1 : ℕ) - 0 + 1) : ℕ) : ℤ)) ∧
      (((imgW7.sum (0, 0) (1, 1)).b / ((((1 : ℕ) - 0 + 1) * ((1 : ℕ) - 0 + 1) : ℕ) : ℤ)) ^ 2 ≤
        (imgW7.square_sum (0, 0) (1, 1)).b / ((((1 : ℕ) - 0 + 1) * ((1 : ℕ) - 0 + 1) : ℕ) : ℤ)) :=
  claim_C7_metric_nonneg imgW7 (0, 0) (1, 1) (by decide) (by decide) (by decide) (by decide)
    (by intro i j; show (0 : ℤ) ≤ 3 ∧ (0 : ℤ) ≤ 4 ∧ (0 : ℤ) ≤ 5; decide)

/-- The grid exhibiting claim C10: a 1x2 image whose red channel holds 0 and 1. -/
def gridC10 : ℕ → ℕ → RGB ℤ := fun _ j => if j = 0 then ⟨0, 0, 0⟩ else ⟨1, 0, 0⟩

/-- The image exhibiting claim C10. -/
def imgC10 : ImageData := ⟨1, 2, gridC10⟩

/-- C10: there is a grid and a valid rectangle whose pixels are not all equal
yet whose error metric is 0 (here a 1x2 grid with red channel values 0 and 1:
truncated mean 0, truncated mean of squares 0), so a zero error metric does not
imply the region is a uniform color. -/
theorem claim_C10_zero_metric_not_uniform :
    ∃ (d : ImageData) (tl br : ℕ × ℕ),
      tl.1 ≤ br.1 ∧ br.1 < d.height ∧ tl.2 ≤ br.2 ∧ br.2 < d.width ∧
      d.grid tl.1 tl.2 ≠ d.grid br.1 br.2 ∧ d.metric tl br = 0 :=
  ⟨imgC10, (0, 0), (0, 1), by decide, by decide, by decide, by decide, by decide, by decide⟩

/-- `Node` (src/tree.rs): an inclusive rectangle plus optional child indices
`(nw, ne, sw, se)` into the arena; `none` marks a leaf. -/
structure Node where
  top_left : ℕ × ℕ
  bottom_right : ℕ × ℕ
  children : Option (ℕ × ℕ × ℕ × ℕ)
deriving DecidableEq, Repr

namespace Node

/-- `Node::leaf` (src/tree.rs). -/
def leaf (top_left bottom_right : ℕ × ℕ) : Node :=
  ⟨top_left, bottom_right, none⟩

/-- `Node::height` (src/tree.rs): `bottom_right.0 - top_left.0` (as `u64`; in
every node the program builds, `top_left ≤ bottom_right`, so the `ℕ`
subtraction agrees with the `u64` one). -/
def height (n : Node) : ℕ := n.bottom_right.1 - n.top_left.1

/-- `Node::width` (src/tree.rs): `bottom_right.1 - top_left.1`. -/
def width (n : Node) : ℕ := n.bottom_right.2 - n.top_left.2

/-- `Node::can_split` (src/tree.rs): `self.width() > 1 && self.height() > 1`. -/
def can_split (n : Node) : Bool :=
  decide (n.width > 1) && decide (n.height > 1)

/-- `Node::split` (src/tree.rs). -/
def split (n : Node) : Option (Node × Node × Node × Node) :=
  if n.can_split = false then none
  else
    let split_h := (n.top_left.1 + n.bottom_right.1) / 2
    let split_w := (n.top_left.2 + n.bottom_right.2) / 2
    let nw_node := leaf n.top_left (split_h, split_w)
    let ne_node := leaf (n.top_left.1, split_w + 1) (split_h, n.bottom_right.2)
    let sw_node := leaf (split_h + 1, n.top_left.2) (n.bottom_right.1, split_w)
    let se_node := leaf (split_h + 1, split_w + 1) n.bottom_right
    some (nw_node, ne_node, sw_node, se_node)

end Node

/-- The inclusive pixel rectangle of a node, as a finite set of coordinates. -/
def rectF (top_left bottom_right : ℕ × ℕ) : Finset (ℕ × ℕ) :=
  Finset.Icc top_left.1 bottom_right.1 ×ˢ Finset.Icc top_left.2 bottom_right.2

/-- C5: for every node whose rectangle satisfies the splittability condition
(`bottom_right.row - top_left.row > 1` and `bottom_right.col - top_left.col > 1`),
`split` produces four children computed with `splitRow = floor((top.row + bottom.row)/2)`
and `splitCol = floor((top.col + bottom.col)/2)`, and the four child rectangles
partition the parent's pixel set exactly: their union equals the parent
rectangle and they are pairwise disjoint. -/
theorem claim_C5_split_partitions (nd : Node) (hw : 1 < nd.width) (hh : 1 < nd.height) :
    ∃ nw_node ne_node sw_node se_node : Node,
      nd.split = some (nw_node, ne_node, sw_node, se_node) ∧
      nw_node = Node.leaf nd.top_left
        ((nd.top_left.1 + nd.bottom_right.1) / 2, (nd.top_left.2 + nd.bottom_right.2) / 2) ∧
      ne_node = Node.leaf (nd.top_left.1, (nd.top_left.2 + nd.bottom_right.2) / 2 + 1)
        ((nd.top_left.1 + nd.bottom_right.1) / 2, nd.bottom_right.2) ∧
      sw_node = Node.leaf ((nd.top_left.1 + nd.bottom_right.1) / 2 + 1, nd.top_left.2)
        (nd.bottom_right.1, (nd.top_left.2 + nd.bottom_right.2) / 2) ∧
      se_node = Node.leaf ((nd.top_left.1 + nd.bottom_right.1) / 2 + 1,
        (nd.top_left.2 + nd.bottom_right.2) / 2 + 1) nd.bottom_right ∧
      rectF nw_node.top_left nw_node.bottom_right ∪
        rectF ne_node.top_left ne_node.bottom_right ∪
        rectF sw_node.top_left sw_node.bottom_right ∪
        rectF se_node.top_left se_node.bottom_right
        = rectF nd.top_left nd.bottom_right ∧
      Disjoint (rectF nw_node.top_left nw_node.bottom_right)
        (rectF ne_node.top_left ne_node.bottom_right) ∧
      Disjoint (rectF nw_node.top_left nw_node.bottom_right)
        (rectF sw_node.top_left sw_node.bottom_right) ∧
      Disjoint (rectF nw_node.top_left nw_node.bottom_right)
        (rectF se_node.top_left se_node.bottom_right) ∧
      Disjoint (rectF ne_node.top_left ne_node.bottom_right)
        (rectF sw_node.top_left sw_node.bottom_right) ∧
      Disjoint (rectF ne_node.top_left ne_node.bottom_right)
        (rectF se_node.top_left se_node.bottom_right) ∧
      Disjoint (rectF sw_node.top_left sw_node.bottom_right)
        (rectF se_node.top_left se_node.bottom_right) := by
  have hw' : 1 < nd.bottom_right.2 - nd.top_left.2 := hw
  have hh' : 1 < nd.bottom_right.1 - nd.top_left.1 := hh
  have hcs : nd.can_split = true := by
    simp [Node.can_split, Node.width, Node.height]
    omega
  refine ⟨_, _, _, _, ?_, rfl, rfl, rfl, rfl, ?_, ?_, ?_, ?_, ?_, ?_, ?_⟩
  · rw [Node.split, hcs]
    simp
  · ext p
    simp only [rectF, Node.leaf, Finset.mem_union, Finset.mem_product, Finset.mem_Icc]
    omega
  all_goals
    rw [Finset.disjoint_left]
    intro p hp hq
    simp only [rectF, Node.leaf, Finset.mem_product, Finset.mem_Icc] at hp hq
    omega

theorem claim_C5_witness :
    (1 < (Node.mk (0, 0) (2, 2) none).width ∧ 1 < (Node.mk (0, 0) (2, 2) none).height) ∧
      ∃ nw_node ne_node sw_node se_node : Node,
        (Node.mk (0, 0) (2, 2) none).split = some (nw_node, ne_node, sw_node, se_node) ∧
        nw_node = Node.leaf (0, 0) (1, 1) ∧
        ne_node = Node.leaf (0, 2) (1, 2) ∧
        sw_node = Node.leaf (2, 0) (2, 1) ∧
        se_node = Node.leaf (2, 2) (2, 2) ∧
        rectF nw_node.top_left nw_node.bottom_right ∪
          rectF ne_node.top_left ne_node.bottom_right ∪
          rectF sw_node.top_left sw_node.bottom_right ∪
          rectF se_node.top_left se_node.bottom_right
          = rectF (0, 0) (2, 2) :=
  ⟨⟨by decide, by decide⟩, by
    obtain ⟨nw_node, ne_node, sw_node, se_node, hs, hnw, hne, hsw, hse, hu, _⟩ :=
      claim_C5_split_partitions (Node.mk (0, 0) (2, 2) none) (by decide) (by decide)
    exact ⟨nw_node, ne_node, sw_node, se_node, hs, hnw, hne, hsw, hse, hu⟩⟩

/-- `OrdNode` (src/tree.rs): a queue entry pairing a node index with its
precomputed metric; ordered by metric. -/
structure OrdNode where
  node_index : ℕ
  metric : ℤ
deriving DecidableEq, Repr

/-- Stand-in node for an out-of-bounds arena access.  `self.nodes[i]` in the
source would panic out of bounds; the invariant proofs below show every index
the scheduler dereferences is in bounds, so this default is never observed. -/
def defaultNode : Node := Node.leaf (0, 0) (0, 0)

/-- `OrdNode::new` (src/tree.rs): scores node `index` of the arena with
`image_data.metric` of its rectangle. -/
def OrdNode.new (nodes : List Node) (index : ℕ) (image_data : ImageData) : OrdNode :=
  let nd := nodes.getD index defaultNode
  ⟨index, image_data.metric nd.top_left nd.bottom_right⟩

/-- Model of `BinaryHeap::pop` on the scheduler queue: removes and returns an
entry of maximal metric together with the remaining entries.  Among equal
metrics the leftmost is taken; `BinaryHeap` leaves the tie order unspecified,
and no property proved below depends on the tie-break. -/
def popMax : List OrdNode → Option (OrdNode × List OrdNode)
  | [] => none
  | x :: xs =>
    match popMax xs with
    | none => some (x, [])
    | some (m, rest) => if m.metric > x.metric then some (m, x :: rest) else some (x, xs)

/-- `Tree` (src/tree.rs): the statistics engine, the node arena, the priority
queue and the fixed dimensions. -/
structure Tree where
  image_data : ImageData
  nodes : List Node
  pq : List OrdNode
  dimensions : ℕ × ℕ

/-- `Tree::new` (src/tree.rs): one root leaf covering the full image, scored
and queued. -/
def Tree.new (image_data : ImageData) : Tree :=
  let dimensions := (image_data.height, image_data.width)
  let root := Node.leaf (0, 0) (dimensions.1 - 1, dimensions.2 - 1)
  let nodes := [root]
  ⟨image_data, nodes, [OrdNode.new nodes 0 image_data], dimensions⟩

/-- The loop of `Tree::refine` (src/tree.rs).  Each iteration pops one queue
entry, so the source loop runs at most `pq.length` iterations; `Tree.refine`
passes exactly that as `fuel`, making the recursion structural.  The branch at
`fuel = 0` coincides with the empty-queue branch and is only reached when the
queue is empty.  Returns `(success, nodes, pq)`; `success = false` models the
`Err("no more nodes to refine")` return.  On success the four children are
appended (`push_node` four times), the popped node's `children` field is set,
and the four children are scored and pushed into the queue, in source order. -/
def refineGo (image_data : ImageData) : ℕ → List Node → List OrdNode →
    Bool × List Node × List OrdNode
  | 0, nodes, _ => (false, nodes, [])
  | fuel + 1, nodes, pq =>
    match popMax pq with
    | none => (false, nodes, [])
    | some (top, rest) =>
      match (nodes.getD top.node_index defaultNode).split with
      | some (nw_node, ne_node, sw_node, se_node) =>
        let nw_index := nodes.length
        let ne_index := nodes.length + 1
        let sw_index := nodes.length + 2
        let se_index := nodes.length + 3
        let nodes1 := nodes ++ [nw_node, ne_node, sw_node, se_node]
        let top_node := nodes1.getD top.node_index defaultNode
        let nodes2 := nodes1.set top.node_index
          { top_node with children := some (nw_index, ne_index, sw_index, se_index) }
        let pq2 := rest ++ [OrdNode.new nodes2 nw_index image_data,
          OrdNode.new nodes2 ne_index image_data,
          OrdNode.new nodes2 sw_index image_data,
          OrdNode.new nodes2 se_index image_data]
        (true, nodes2, pq2)
      | none => refineGo image_data fuel nodes rest

/-- `Tree::refine` (src/tree.rs): `true` models `Ok(())`, `false` models the
`Err("no more nodes to refine")` result; the returned tree is the mutated
`self`. -/
def Tree.refine (t : Tree) : Bool × Tree :=
  let res := refineGo t.image_data t.pq.length t.nodes t.pq
  (res.1, { t with nodes := res.2.1, pq := res.2.2 })

/-- `n` successive `Tree::refine` calls that all returned `Ok`; `none` if any
call failed. -/
def Tree.refineN : ℕ → Tree → Option Tree
  | 0, t => some t
  | n + 1, t =>
    match Tree.refine t with
    | (true, t1) => Tree.refineN n t1
    | (false, _) => none

/-- Number of leaves (`children == None`) in the arena. -/
def leafCount (nodes : List Node) : ℕ :=
  (nodes.filter fun nd => nd.children.isNone).length

/-- The checkerboard 2x2 grid of scenario C2: black at (0,0) and (1,1), white
at (0,1) and (1,0). -/
def gridC2 : ℕ → ℕ → RGB ℤ :=
  fun i j => if (i + j) % 2 = 0 then ⟨0, 0, 0⟩ else ⟨255, 255, 255⟩

/-- The 2x2 checkerboard image of scenario C2. -/
def imgC2 : ImageData := ⟨2, 2, gridC2⟩

/-- C2 counterexample: on the 2x2 checkerboard the first `refine` call does
NOT split the root into four 1x1 leaves; it fails (root extents are 1 and 1,
and `can_split` requires both > 1) and the arena still holds a single node. -/
theorem claim_C2_counterexample :
    (Tree.new imgC2).refine.1 = false ∧
      ¬ ((Tree.new imgC2).refine.2.nodes.length = 5) := by
  exact ⟨rfl, by decide⟩

/-- C2 (amended): on the 2x2 checkerboard grid, `average` over the full
rectangle returns (127,127,127); but the root rectangle has extent 1 on both
axes and `can_split` requires extent > 1, so the very first `refine` call (and
every later one) fails with `NoMoreRefinableNodes`, the arena is unchanged,
and no split into four 1x1 leaves ever happens. -/
theorem claim_C2_checkerboard :
    imgC2.average (0, 0) (1, 1) = ⟨127, 127, 127⟩ ∧
      (Tree.new imgC2).nodes.length = 1 ∧
      (Tree.new imgC2).refine.1 = false ∧
      (Tree.new imgC2).refine.2.nodes = (Tree.new imgC2).nodes ∧
      ((Tree.new imgC2).refine.2).refine.1 = false := by
  refine ⟨?_, rfl, rfl, rfl, rfl⟩
  decide

/-- The all-black 1x5 grid of scenario C3. -/
def gridC3 : ℕ → ℕ → RGB ℤ := fun _ _ => ⟨0, 0, 0⟩

/-- The 1x5 image of scenario C3. -/
def imgC3 : ImageData := ⟨1, 5, gridC3⟩

/-- C3 counterexample: on a 1x5 grid, repeated `refine` calls do NOT subdivide
along the width: the very first call fails (the root's height extent is 0 and
`can_split` requires both extents > 1) and the arena keeps its single 1x5
leaf, which is not 1x1. -/
theorem claim_C3_counterexample :
    (Tree.new imgC3).refine.1 = false ∧
      (Tree.new imgC3).refine.2.nodes.length = 1 ∧
      ¬ ((Tree.new imgC3).refine.2.nodes.getD 0 defaultNode).width = 0 := by
  exact ⟨rfl, rfl, by decide⟩

/-- C3 (amended): on a 1x5 grid (any pixel values) the tree never splits at
all: `can_split` requires extent > 1 on both axes and the root's height extent
is 0, so the first `refine` call already fails with `NoMoreRefinableNodes`,
the arena is unchanged (the single leaf stays 1x5), and the next call fails
again.  In particular the tree never splits along its height. -/
theorem claim_C3_one_row_never_splits (g : ℕ → ℕ → RGB ℤ) :
    (Tree.new ⟨1, 5, g⟩).refine.1 = false ∧
      (Tree.new ⟨1, 5, g⟩).refine.2.nodes = (Tree.new ⟨1, 5, g⟩).nodes ∧
      ((Tree.new ⟨1, 5, g⟩).refine.2).refine.1 = false := by
  exact ⟨rfl, rfl, rfl⟩

theorem popMax_eq_none {l : List OrdNode} (h : popMax l = none) : l = [] := by
  cases l with
  | nil => rfl
  | cons x xs =>
    rw [popMax] at h
    cases hp : popMax xs with
    | none => rw [hp] at h; simp at h
    | some p =>
      obtain ⟨m, rest⟩ := p
      rw [hp] at h
      by_cases hc : m.metric > x.metric <;> simp [hc] at h

theorem popMax_perm {l : List OrdNode} {x : OrdNode} {rest : List OrdNode}
    (h : popMax l = some (x, rest)) : List.Perm l (x :: rest) := by
  induction l generalizing x rest with
  | nil => simp [popMax] at h
  | cons y ys ih =>
    rw [popMax] at h
    cases hp : popMax ys with
    | none =>
      rw [hp] at h
      simp at h
      obtain ⟨rfl, rfl⟩ := h
      rw [popMax_eq_none hp]
    | some p =>
      obtain ⟨m, r⟩ := p
      rw [hp] at h
      by_cases hc : m.metric > y.metric
      · simp only [hc, if_true] at h
        simp at h
        obtain ⟨rfl, rfl⟩ := h
        exact ((ih hp).cons y).trans (List.Perm.swap _ y r)
      · simp only [hc, if_false] at h
        simp at h
        obtain ⟨rfl, rfl⟩ := h
        exact List.Perm.refl _

theorem popMax_length {l : List OrdNode} {x : OrdNode} {rest : List OrdNode}
    (h : popMax l = some (x, rest)) : rest.length + 1 = l.length := by
  have := (popMax_perm h).length_eq
  simp at this
  omega

theorem subperm_nodup {β : Type} {l1 l2 : List β} (h : List.Subperm l1 l2)
    (h2 : l2.Nodup) : l1.Nodup := by
  obtain ⟨l, hp, hs⟩ := h
  exact hp.nodup_iff.mp (h2.sublist hs)

theorem subperm_map {β γ : Type} (f : β → γ) {l1 l2 : List β} (h : List.Subperm l1 l2) :
    List.Subperm (l1.map f) (l2.map f) := by
  obtain ⟨l, hp, hs⟩ := h
  exact ⟨l.map f, hp.map f, hs.map f⟩

theorem getD_append_left {l l2 : List Node} {i : ℕ} (h : i < l.length) :
    (l ++ l2).getD i defaultNode = l.getD i defaultNode := by
  rw [List.getD_eq_getElem?_getD, List.getElem?_append_left h, ← List.getD_eq_getElem?_getD]

theorem getD_append_right {l l2 : List Node} {i : ℕ} (h : l.length ≤ i) :
    (l ++ l2).getD i defaultNode = l2.getD (i - l.length) defaultNode := by
  rw [List.getD_eq_getElem?_getD, List.getElem?_append_right h, ← List.getD_eq_getElem?_getD]

theorem getD_set_eq {l : List Node} {i : ℕ} {x : Node} (h : i < l.length) :
    (l.set i x).getD i defaultNode = x := by
  rw [List.getD_eq_getElem?_getD, List.getElem?_set_eq_of_lt x h]
  rfl

theorem getD_set_ne {l : List Node} {i j : ℕ} {x : Node} (h : i ≠ j) :
    (l.set i x).getD j defaultNode = l.getD j defaultNode := by
  rw [List.getD_eq_getElem?_getD, List.getElem?_set_ne h, ← List.getD_eq_getElem?_getD]

theorem getD_oob {l : List Node} {i : ℕ} (h : l.length ≤ i) :
    l.getD i defaultNode = defaultNode := by
  rw [List.getD_eq_getElem?_getD, List.getElem?_eq_none h]
  rfl

theorem countP_set_add (p : Node → Bool) :
    ∀ (l : List Node) (i : ℕ) (x : Node), i < l.length →
      (l.set i x).countP p + (if p (l.getD i defaultNode) then 1 else 0) =
        l.countP p + (if p x then 1 else 0) := by
  intro l
  induction l with
  | nil => intro i x h; simp at h
  | cons a t ih =>
    intro i x h
    cases i with
    | zero =>
      simp only [List.set, List.countP_cons, List.getD_cons_zero]
      by_cases hpa : p a = true <;> by_cases hpx : p x = true <;>
        simp only [hpa, hpx, if_true, if_false] <;> omega
    | succ i =>
      simp only [List.set, List.countP_cons, List.getD_cons_succ]
      have h2 := ih i x (by simpa using h)
      simp only [List.getD_eq_getElem?_getD] at h2 ⊢
      omega

theorem split_children {n : Node} {a b c d : Node}
    (h : n.split = some (a, b, c, d)) :
    a.children = none ∧ b.children = none ∧ c.children = none ∧ d.children = none := by
  rw [Node.split] at h
  split at h
  · simp at h
  · simp only [Option.some.injEq, Prod.mk.injEq] at h
    obtain ⟨rfl, rfl, rfl, rfl⟩ := h
    exact ⟨rfl, rfl, rfl, rfl⟩

/-- The arena after the success branch of `Tree::refine`: the four children
appended, then the popped node's `children` field set to their indices. -/
def splitNodes (nodes : List Node) (idx : ℕ)
    (nw_node ne_node sw_node se_node : Node) : List Node :=
  let nodes1 := nodes ++ [nw_node, ne_node, sw_node, se_node]
  nodes1.set idx { nodes1.getD idx defaultNode with
    children := some (nodes.length, nodes.length + 1, nodes.length + 2, nodes.length + 3) }

/-- The four scored entries pushed into the queue in the success branch of
`Tree::refine`, in source order nw, ne, sw, se. -/
def splitEntries (image_data : ImageData) (nodes : List Node) (idx : ℕ)
    (nw_node ne_node sw_node se_node : Node) : List OrdNode :=
  let nodes2 := splitNodes nodes idx nw_node ne_node sw_node se_node
  [OrdNode.new nodes2 nodes.length image_data,
    OrdNode.new nodes2 (nodes.length + 1) image_data,
    OrdNode.new nodes2 (nodes.length + 2) image_data,
    OrdNode.new nodes2 (nodes.length + 3) image_data]

theorem length_splitNodes (nodes : List Node) (idx : ℕ) (a b c d : Node) :
    (splitNodes nodes idx a b c d).length = nodes.length + 4 := by
  simp [splitNodes]

theorem splitNodes_getD_lt_ne {nodes : List Node} {idx j : ℕ} {a b c d : Node}
    (hj : j < nodes.length) (hne : idx ≠ j) :
    (splitNodes nodes idx a b c d).getD j defaultNode = nodes.getD j defaultNode := by
  rw [splitNodes, getD_set_ne hne, getD_append_left hj]

theorem splitNodes_getD_eq {nodes : List Node} {idx : ℕ} {a b c d : Node}
    (hidx : idx < nodes.length) :
    (splitNodes nodes idx a b c d).getD idx defaultNode =
      { nodes.getD idx defaultNode with
        children := some (nodes.length, nodes.length + 1, nodes.length + 2, nodes.length + 3) } := by
  rw [splitNodes, getD_set_eq (by simp; omega), getD_append_left hidx]

theorem splitNodes_getD_fresh {nodes : List Node} {idx : ℕ} {a b c d : Node}
    (hidx : idx < nodes.length) (k : ℕ) (hk : k < 4) :
    (splitNodes nodes idx a b c d).getD (nodes.length + k) defaultNode =
      [a, b, c, d].getD k defaultNode := by
  rw [splitNodes, getD_set_ne (by omega), getD_append_right (by omega)]
  congr 1
  omega

theorem leafCount_set_children (l : List Node) (idx : ℕ) (nd : Node) (c4 : ℕ × ℕ × ℕ × ℕ)
    (hidx : idx < l.length) (hleaf : (l.getD idx defaultNode).children = none)
    (hnd : nd.children = some c4) :
    leafCount (l.set idx nd) + 1 = leafCount l := by
  have hset := countP_set_add (fun x => x.children.isNone) l idx nd hidx
  have hleaf2 : (l[idx]?.getD defaultNode).children = none := by
    rw [← List.getD_eq_getElem?_getD]; exact hleaf
  simp [hleaf, hleaf2, hnd] at hset
  rw [leafCount, leafCount, ← List.countP_eq_length_filter, ← List.countP_eq_length_filter]
  omega

theorem leafCount_append_leaves (nodes : List Node) {a b c d : Node}
    (ha : a.children = none) (hb : b.children = none)
    (hc : c.children = none) (hd : d.children = none) :
    leafCount (nodes ++ [a, b, c, d]) = leafCount nodes + 4 := by
  rw [leafCount, leafCount, List.filter_append]
  simp [List.filter, ha, hb, hc, hd]

theorem leafCount_splitNodes {nodes : List Node} {idx : ℕ} {a b c d : Node}
    (hidx : idx < nodes.length)
    (hleaf : (nodes.getD idx defaultNode).children = none)
    (ha : a.children = none) (hb : b.children = none)
    (hc : c.children = none) (hd : d.children = none) :
    leafCount (splitNodes nodes idx a b c d) + 1 = leafCount nodes + 4 := by
  have hidx1 : idx < (nodes ++ [a, b, c, d]).length := by
    simp only [List.length_append, List.length_cons, List.length_nil]
    omega
  have e0 : ((nodes ++ [a, b, c, d]).getD idx defaultNode).children = none := by
    rw [getD_append_left hidx]; exact hleaf
  have h2 := leafCount_set_children (nodes ++ [a, b, c, d]) idx
    (Node.mk ((nodes ++ [a, b, c, d]).getD idx defaultNode).top_left
      ((nodes ++ [a, b, c, d]).getD idx defaultNode).bottom_right
      (some (nodes.length, nodes.length + 1, nodes.length + 2, nodes.length + 3)))
    (nodes.length, nodes.length + 1, nodes.length + 2, nodes.length + 3) hidx1 e0 rfl
  have h1 := leafCount_append_leaves nodes ha hb hc hd
  simp only [splitNodes]
  omega

theorem refineGo_false (image_data : ImageData) :
    ∀ (fuel : ℕ) (nodes : List Node) (pq : List OrdNode), pq.length ≤ fuel →
      (refineGo image_data fuel nodes pq).1 = false →
      (refineGo image_data fuel nodes pq).2.1 = nodes ∧
      (refineGo image_data fuel nodes pq).2.2 = [] ∧
      ∀ e ∈ pq, (nodes.getD e.node_index defaultNode).split = none := by
  intro fuel
  induction fuel with
  | zero =>
    intro nodes pq hlen hf
    have hpq : pq = [] := List.length_eq_zero.mp (Nat.le_zero.mp hlen)
    subst hpq
    exact ⟨rfl, rfl, by simp⟩
  | succ fuel ih =>
    intro nodes pq hlen hf
    rcases hp : popMax pq with _ | ⟨top, rest⟩
    · have hpq : pq = [] := popMax_eq_none hp
      subst hpq
      exact ⟨rfl, rfl, by simp⟩
    · rcases hs : (nodes.getD top.node_index defaultNode).split with _ | ⟨nw_node, ne_node, sw_node, se_node⟩
      · have hlen2 : rest.length ≤ fuel := by
          have := popMax_length hp
          omega
        simp only [refineGo, hp, hs] at hf ⊢
        have hrec := ih nodes rest hlen2 hf
        refine ⟨hrec.1, hrec.2.1, ?_⟩
        intro e he
        rcases List.mem_cons.mp (((popMax_perm hp).mem_iff).mp he) with h0 | h0
        · rw [h0]; exact hs
        · exact hrec.2.2 e h0
      · simp only [refineGo, hp, hs] at hf
        exact Bool.noConfusion hf

theorem refineGo_true (image_data : ImageData) :
    ∀ (fuel : ℕ) (nodes : List Node) (pq : List OrdNode),
      (refineGo image_data fuel nodes pq).1 = true →
      ∃ top rest nw_node ne_node sw_node se_node,
        List.Subperm (top :: rest) pq ∧
        (nodes.getD top.node_index defaultNode).split =
          some (nw_node, ne_node, sw_node, se_node) ∧
        (refineGo image_data fuel nodes pq).2.1 =
          splitNodes nodes top.node_index nw_node ne_node sw_node se_node ∧
        (refineGo image_data fuel nodes pq).2.2 =
          rest ++ splitEntries image_data nodes top.node_index nw_node ne_node sw_node se_node := by
  intro fuel
  induction fuel with
  | zero => intro nodes pq ht; simp [refineGo] at ht
  | succ fuel ih =>
    intro nodes pq ht
    rcases hp : popMax pq with _ | ⟨top, rest⟩
    · simp only [refineGo, hp] at ht
      exact Bool.noConfusion ht
    · rcases hs : (nodes.getD top.node_index defaultNode).split with _ | ⟨nw_node, ne_node, sw_node, se_node⟩
      · simp only [refineGo, hp, hs] at ht ⊢
        obtain ⟨top1, rest1, a, b, c, d2, hsub, hsp, h1, h2⟩ := ih nodes rest ht
        refine ⟨top1, rest1, a, b, c, d2, ?_, hsp, h1, h2⟩
        exact hsub.trans ((List.sublist_cons_self top rest).subperm.trans
          (popMax_perm hp).symm.subperm)
      · simp only [refineGo, hp, hs]
        exact ⟨top, rest, nw_node, ne_node, sw_node, se_node,
          (popMax_perm hp).symm.subperm, hs, rfl, rfl⟩

/-- The scheduler invariant: every queue entry points into the arena at a node
that is still a leaf, and no node index is queued twice. -/
def Tree.inv (t : Tree) : Prop :=
  (∀ e ∈ t.pq, e.node_index < t.nodes.length ∧
    (t.nodes.getD e.node_index defaultNode).children = none) ∧
  (t.pq.map OrdNode.node_index).Nodup

theorem inv_new (d : ImageData) : (Tree.new d).inv := by
  constructor
  · intro e he
    simp only [Tree.new, OrdNode.new, List.mem_singleton] at he
    subst he
    exact ⟨by simp [Tree.new], by simp [Tree.new, Node.leaf]⟩
  · simp [Tree.new, OrdNode.new]

theorem refine_false_spec (t : Tree) (hf : (Tree.refine t).1 = false) :
    (Tree.refine t).2.nodes = t.nodes ∧ (Tree.refine t).2.pq = [] ∧
    ∀ e ∈ t.pq, (t.nodes.getD e.node_index defaultNode).split = none :=
  refineGo_false t.image_data t.pq.length t.nodes t.pq (le_refl _) hf

theorem refine_true_spec (t : Tree) (hinv : t.inv) (ht : (Tree.refine t).1 = true) :
    (Tree.refine t).2.inv ∧
    (Tree.refine t).2.nodes.length = t.nodes.length + 4 ∧
    leafCount (Tree.refine t).2.nodes + 1 = leafCount t.nodes + 4 ∧
    ∃ idx, idx < t.nodes.length ∧ (t.nodes.getD idx defaultNode).children = none ∧
      ((Tree.refine t).2.nodes.getD idx defaultNode).children =
        some (t.nodes.length, t.nodes.length + 1, t.nodes.length + 2, t.nodes.length + 3) ∧
      ∀ j, j ≠ idx → ((Tree.refine t).2.nodes.getD j defaultNode).children =
        (t.nodes.getD j defaultNode).children := by
  obtain ⟨top, rest, a, b, c, d2, hsub, hsp, h1, h2⟩ :=
    refineGo_true t.image_data t.pq.length t.nodes t.pq ht
  have htop_mem : top ∈ t.pq := hsub.subset (List.mem_cons_self top rest)
  have hrest_mem : ∀ e ∈ rest, e ∈ t.pq := fun e he =>
    hsub.subset (List.mem_cons_of_mem top he)
  obtain ⟨hidx, hleaf⟩ := hinv.1 top htop_mem
  obtain ⟨hch_a, hch_b, hch_c, hch_d⟩ := split_children hsp
  have hnodup_tr : ((top :: rest).map OrdNode.node_index).Nodup :=
    subperm_nodup (subperm_map OrdNode.node_index hsub) hinv.2
  have htop_notin : top.node_index ∉ rest.map OrdNode.node_index := by
    simp only [List.map_cons] at hnodup_tr
    exact (List.nodup_cons.mp hnodup_tr).1
  have hrest_nodup : (rest.map OrdNode.node_index).Nodup := by
    simp only [List.map_cons] at hnodup_tr
    exact (List.nodup_cons.mp hnodup_tr).2
  have hnodes1 : (Tree.refine t).2.nodes = splitNodes t.nodes top.node_index a b c d2 := h1
  have hpq1 : (Tree.refine t).2.pq =
      rest ++ splitEntries t.image_data t.nodes top.node_index a b c d2 := h2
  have hlen1 : (Tree.refine t).2.nodes.length = t.nodes.length + 4 := by
    rw [hnodes1, length_splitNodes]
  refine ⟨⟨?_, ?_⟩, hlen1, ?_, top.node_index, hidx, hleaf, ?_, ?_⟩
  · -- every entry of the new queue points at a leaf in bounds
    intro e he
    rw [hpq1] at he
    rcases List.mem_append.mp he with h0 | h0
    · obtain ⟨hi, hc0⟩ := hinv.1 e (hrest_mem e h0)
      have hne : top.node_index ≠ e.node_index := by
        intro hcontra
        exact htop_notin (hcontra ▸ List.mem_map_of_mem OrdNode.node_index h0)
      constructor
      · omega
      · rw [hnodes1, splitNodes_getD_lt_ne hi hne]
        exact hc0
    · -- one of the four fresh entries
      rw [hnodes1]
      simp only [splitEntries, OrdNode.new, List.mem_cons, List.mem_singleton,
        List.not_mem_nil, or_false] at h0
      have hgo : ∀ k, k < 4 →
          (t.nodes.length + k < (splitNodes t.nodes top.node_index a b c d2).length ∧
          ((splitNodes t.nodes top.node_index a b c d2).getD (t.nodes.length + k)
            defaultNode).children = none) := by
        intro k hk
        constructor
        · rw [length_splitNodes]; omega
        · rw [splitNodes_getD_fresh hidx k hk]
          have h4 : k = 0 ∨ k = 1 ∨ k = 2 ∨ k = 3 := by omega
          rcases h4 with h0 | h0 | h0 | h0 <;> rw [h0]
          · exact hch_a
          · exact hch_b
          · exact hch_c
          · exact hch_d
      rcases h0 with rfl | rfl | rfl | rfl
      · simpa using hgo 0 (by omega)
      · exact hgo 1 (by omega)
      · exact hgo 2 (by omega)
      · exact hgo 3 (by omega)
  · -- the new queue has pairwise distinct node indices
    rw [hpq1]
    rw [List.map_append]
    refine List.Nodup.append hrest_nodup ?_ ?_
    · simp [splitEntries, OrdNode.new]
    · intro x hx hx2
      simp only [splitEntries, OrdNode.new, List.map_cons, List.map_nil, List.mem_cons,
        List.not_mem_nil, or_false] at hx2
      obtain ⟨e, he, rfl⟩ := List.mem_map.mp hx
      have := (hinv.1 e (hrest_mem e he)).1
      rcases hx2 with h0 | h0 | h0 | h0 <;> omega
  · rw [hnodes1]
    exact leafCount_splitNodes hidx hleaf hch_a hch_b hch_c hch_d
  · rw [hnodes1, splitNodes_getD_eq hidx]
  · intro j hj
    rw [hnodes1]
    by_cases hjlt : j < t.nodes.length
    · rw [splitNodes_getD_lt_ne hjlt (by omega)]
    · by_cases hjhi : j < t.nodes.length + 4
      · have hk : j - t.nodes.length < 4 := by omega
        have hj_eq : j = t.nodes.length + (j - t.nodes.length) := by omega
        rw [hj_eq, splitNodes_getD_fresh hidx _ hk]
        have hnone : ([a, b, c, d2].getD (j - t.nodes.length) defaultNode).children = none := by
          have h4 : j - t.nodes.length = 0 ∨ j - t.nodes.length = 1 ∨
              j - t.nodes.length = 2 ∨ j - t.nodes.length = 3 := by omega
          rcases h4 with h0 | h0 | h0 | h0 <;> rw [h0]
          · exact hch_a
          · exact hch_b
          · exact hch_c
          · exact hch_d
        rw [hnone, getD_oob (l := t.nodes) (by omega)]
        rfl
      · rw [getD_oob (by rw [length_splitNodes]; omega), getD_oob (by omega)]

/-- One scheduler step: the tree state after one `Tree::refine` call,
successful or not. -/
def Tree.step (t1 t2 : Tree) : Prop := (Tree.refine t1).2 = t2

/-- Tree states reachable from `Tree::new` by a sequence of `refine` calls. -/
def Tree.reachable (d : ImageData) (t : Tree) : Prop :=
  Relation.ReflTransGen Tree.step (Tree.new d) t

theorem inv_preserved (t : Tree) (hinv : t.inv) : (Tree.refine t).2.inv := by
  cases hb : (Tree.refine t).1 with
  | true => exact (refine_true_spec t hinv hb).1
  | false =>
    obtain ⟨hn, hp, _⟩ := refine_false_spec t hb
    constructor
    · intro e he
      rw [hp] at he
      simp at he
    · rw [hp]
      simp

theorem reachable_inv {d : ImageData} {t : Tree} (h : Tree.reachable d t) : t.inv := by
  induction h with
  | refl => exact inv_new d
  | tail _ hbc ih =>
    rw [← hbc]
    exact inv_preserved _ ih

theorem refineN_counts :
    ∀ (n : ℕ) (t t1 : Tree), t.inv → Tree.refineN n t = some t1 →
      t1.inv ∧ t1.nodes.length = t.nodes.length + 4 * n ∧
      leafCount t1.nodes = leafCount t.nodes + 3 * n := by
  intro n
  induction n with
  | zero =>
    intro t t1 hinv h
    simp only [Tree.refineN, Option.some.injEq] at h
    subst h
    exact ⟨hinv, by omega, by omega⟩
  | succ n ih =>
    intro t t1 hinv h
    rw [Tree.refineN] at h
    rcases hr : Tree.refine t with ⟨b, t2⟩
    rw [hr] at h
    cases b with
    | false => simp at h
    | true =>
      have h2 : Tree.refineN n t2 = some t1 := h
      have hb : (Tree.refine t).1 = true := by rw [hr]
      have hspec := refine_true_spec t hinv hb
      have ht2 : (Tree.refine t).2 = t2 := by rw [hr]
      rw [ht2] at hspec
      obtain ⟨hinv2, hlen2, hleaf2, _⟩ := hspec
      obtain ⟨hinv3, hlen3, hleaf3⟩ := ih t2 t1 hinv2 h2
      exact ⟨hinv3, by omega, by omega⟩

/-- C6: for every tree built from a valid image and every `n`, after `n`
`refine` calls that all returned success, the node arena contains exactly
`1 + 4n` nodes and exactly `1 + 3n` of them are leaves (`children == None`). -/
theorem claim_C6_arena_counts (d : ImageData) (hh : 0 < d.height) (hw : 0 < d.width)
    (n : ℕ) (t1 : Tree) (h : Tree.refineN n (Tree.new d) = some t1) :
    t1.nodes.length = 1 + 4 * n ∧ leafCount t1.nodes = 1 + 3 * n := by
  obtain ⟨_, hlen, hleaf⟩ := refineN_counts n (Tree.new d) t1 (inv_new d) h
  have h1 : (Tree.new d).nodes.length = 1 := rfl
  have h2 : leafCount (Tree.new d).nodes = 1 := rfl
  omega

/-- Witness grid for C6, C8, C9: a constant 3x3 image (its root does split). -/
def w9grid : ℕ → ℕ → RGB ℤ := fun _ _ => ⟨1, 2, 3⟩

/-- Witness image for C6, C8, C9. -/
def img9 : ImageData := ⟨3, 3, w9grid⟩

theorem claim_C6_witness :
    ((Tree.refineN 1 (Tree.new img9)).getD (Tree.new img9)).nodes.length = 1 + 4 * 1 ∧
    leafCount ((Tree.refineN 1 (Tree.new img9)).getD (Tree.new img9)).nodes = 1 + 3 * 1 :=
  claim_C6_arena_counts img9 (by decide) (by decide) 1
    ((Tree.refineN 1 (Tree.new img9)).getD (Tree.new img9)) (by rfl)

/-- C8: `refine` returns the `NoMoreRefinableNodes` error exactly when the
priority queue is exhausted with no splittable node remaining, and on that
error no node gains children (the arena is unchanged); on success exactly one
node is split, with all four children appended to the arena, scored, and
pushed into the queue. -/
theorem claim_C8_refine_semantics (t : Tree) (b : Bool) (t1 : Tree)
    (h : Tree.refine t = (b, t1)) :
    (b = false ↔ ∀ e ∈ t.pq, (t.nodes.getD e.node_index defaultNode).split = none) ∧
    (b = false → t1.nodes = t.nodes) ∧
    (b = true → ∃ top rest nw_node ne_node sw_node se_node,
      List.Subperm (top :: rest) t.pq ∧
      (t.nodes.getD top.node_index defaultNode).split =
        some (nw_node, ne_node, sw_node, se_node) ∧
      t1.nodes = splitNodes t.nodes top.node_index nw_node ne_node sw_node se_node ∧
      t1.pq = rest ++ splitEntries t.image_data t.nodes top.node_index
        nw_node ne_node sw_node se_node) := by
  have hb : (Tree.refine t).1 = b := by rw [h]
  have ht1 : (Tree.refine t).2 = t1 := by rw [h]
  refine ⟨⟨?_, ?_⟩, ?_, ?_⟩
  · intro hbf
    exact (refine_false_spec t (hb.trans hbf)).2.2
  · intro hall
    cases hbv : b with
    | false => rfl
    | true =>
      obtain ⟨top, rest, a2, b2, c2, d2, hsub, hsp, _, _⟩ :=
        refineGo_true t.image_data t.pq.length t.nodes t.pq (hb.trans hbv)
      have hnone := hall top (hsub.subset (List.mem_cons_self top rest))
      rw [hnone] at hsp
      cases hsp
  · intro hbf
    rw [← ht1]
    exact (refine_false_spec t (hb.trans hbf)).1
  · intro hbt
    obtain ⟨top, rest, a2, b2, c2, d2, hsub, hsp, h1, h2⟩ :=
      refineGo_true t.image_data t.pq.length t.nodes t.pq (hb.trans hbt)
    refine ⟨top, rest, a2, b2, c2, d2, hsub, hsp, ?_, ?_⟩
    · rw [← ht1]
      exact h1
    · rw [← ht1]
      exact h2

theorem claim_C8_witness :
    ((Tree.refine (Tree.new img9)).1 = false ↔ ∀ e ∈ (Tree.new img9).pq,
        ((Tree.new img9).nodes.getD e.node_index defaultNode).split = none) ∧
    ((Tree.refine (Tree.new img9)).1 = false →
      (Tree.refine (Tree.new img9)).2.nodes = (Tree.new img9).nodes) ∧
    ((Tree.refine (Tree.new img9)).1 = true →
      ∃ top rest nw_node ne_node sw_node se_node,
        List.Subperm (top :: rest) (Tree.new img9).pq ∧
        ((Tree.new img9).nodes.getD top.node_index defaultNode).split =
          some (nw_node, ne_node, sw_node, se_node) ∧
        (Tree.refine (Tree.new img9)).2.nodes =
          splitNodes (Tree.new img9).nodes top.node_index nw_node ne_node sw_node se_node ∧
        (Tree.refine (Tree.new img9)).2.pq = rest ++ splitEntries (Tree.new img9).image_data
          (Tree.new img9).nodes top.node_index nw_node ne_node sw_node se_node) :=
  claim_C8_refine_semantics (Tree.new img9) (Tree.refine (Tree.new img9)).1
    (Tree.refine (Tree.new img9)).2 rfl

/-- C9: no node is ever split twice.  From any reachable tree state, a
`refine` call never changes an already-set `children` field (children are
written once and never overwritten), and when a split happens it happens to a
node that was still a leaf, all other nodes keeping their `children` field. -/
theorem claim_C9_split_once (d : ImageData) (t : Tree) (hr : Tree.reachable d t) :
    (∀ i c4, (t.nodes.getD i defaultNode).children = some c4 →
      ((Tree.refine t).2.nodes.getD i defaultNode).children = some c4) ∧
    ((Tree.refine t).1 = true → ∃ idx,
      (t.nodes.getD idx defaultNode).children = none ∧
      ((Tree.refine t).2.nodes.getD idx defaultNode).children ≠ none ∧
      ∀ j, j ≠ idx → ((Tree.refine t).2.nodes.getD j defaultNode).children =
        (t.nodes.getD j defaultNode).children) := by
  have hinv := reachable_inv hr
  cases hb : (Tree.refine t).1 with
  | false =>
    obtain ⟨hn, _, _⟩ := refine_false_spec t hb
    refine ⟨?_, ?_⟩
    · intro i c4 hc
      rw [hn]
      exact hc
    · intro hcontra
      exact Bool.noConfusion hcontra
  | true =>
    obtain ⟨_, _, _, idx, hidxlt, hleaf, hset, hothers⟩ := refine_true_spec t hinv hb
    refine ⟨?_, ?_⟩
    · intro i c4 hc
      have hne : i ≠ idx := by
        intro he
        rw [he, hleaf] at hc
        cases hc
      rw [hothers i hne]
      exact hc
    · intro _
      refine ⟨idx, hleaf, ?_, hothers⟩
      rw [hset]
      simp

theorem claim_C9_witness :
    (∀ i c4, ((Tree.new img9).nodes.getD i defaultNode).children = some c4 →
      ((Tree.refine (Tree.new img9)).2.nodes.getD i defaultNode).children = some c4) ∧
    ((Tree.refine (Tree.new img9)).1 = true → ∃ idx,
      ((Tree.new img9).nodes.getD idx defaultNode).children = none ∧
      ((Tree.refine (Tree.new img9)).2.nodes.getD idx defaultNode).children ≠ none ∧
      ∀ j, j ≠ idx → ((Tree.refine (Tree.new img9)).2.nodes.getD j defaultNode).children =
        ((Tree.new img9).nodes.getD j defaultNode).children) :=
  claim_C9_split_once img9 (Tree.new img9) Relation.ReflTransGen.refl

end Comprs
